import Mathlib

/-!
# BigDataFormats: the indexed text store and the binary buffer examples

A shallow embedding of the example programs

* `examples/indexing/make_index.cc` and `examples/indexing/read_indexed_data.cc`
  (a text data file with a text index of byte offsets),
* `examples/binary/binaryCpp3.cc` and `examples/binaryCpp2.cc`
  (buffered binary writers and the read-back loop),
* `examples/binary/binaryCpp.cc` and `examples/binaryC.c`
  (one `write` and one `read` of a whole buffer),
* `examples/binary/intSizes.cc` (two integer widths).

Files are lists of characters (text programs) or lists of bytes (binary
programs).  All opens are taken to succeed and every write to a regular file
transfers all the bytes it is given.  A `double` is carried as its 64-bit
pattern; its arithmetic is not part of the model.
-/

namespace BigDataFormats

/-! ## Formatted text streams -/

/-- The decimal digit character of `d % 10`. -/
def digitChar (d : Nat) : Char := Char.ofNat (48 + d % 10)

/-- Worker of `decimal`: digits of `n` pushed in front of `acc`, most significant first. -/
def decimalAux : Nat → Nat → List Char → List Char
  | 0, _, acc => acc
  | fuel + 1, n, acc =>
    if n < 10 then digitChar n :: acc
    else decimalAux fuel (n / 10) (digitChar n :: acc)

/-- The characters `operator<<` produces for a non-negative integer: its decimal
digits, no sign, no padding. -/
def decimal (n : Nat) : List Char := decimalAux (n + 1) n []

/-- The whitespace class of the "C" locale, skipped by formatted extraction. -/
def isSpace (c : Char) : Bool :=
  c == ' ' || c == '\t' || c == '\n' || c == Char.ofNat 11 || c == Char.ofNat 12 || c == '\r'

/-- The value of a run of decimal digits, most significant first. -/
def digitsValue (ds : List Char) : Nat :=
  ds.foldl (fun acc c => acc * 10 + (c.toNat - 48)) 0

/-- An input stream: the characters from the get position on, and the two state
bits the programs depend on. -/
structure IStream where
  rest : List Char
  failbit : Bool
  eofbit : Bool
deriving DecidableEq, Repr

/-- A freshly opened input file, positioned at its start. -/
def IStream.open (content : List Char) : IStream := ⟨content, false, false⟩

/-- The result of `stream >> v` for an unsigned integer `v` of `w` bits whose
content before the call is `v`.

* A stream that is not good gets `failbit` and `v` is left alone.
* Leading whitespace is skipped; reaching the end there sets `eofbit` and
  `failbit` and leaves `v` alone.
* With no digit at the get position, `failbit` is set and zero is stored.
* A digit run is consumed whole; a value that does not fit `w` bits stores the
  largest value and sets `failbit`.  Running into the end of the file while
  consuming digits sets `eofbit`.

A leading sign, which the library also accepts, is not covered: the files of
these programs hold digits and newlines only. -/
def extractUnsigned (w : Nat) (s : IStream) (v : Nat) : IStream × Nat :=
  if s.failbit || s.eofbit then ({ s with failbit := true }, v)
  else
    let r := s.rest.dropWhile isSpace
    if r.isEmpty then (⟨[], true, true⟩, v)
    else
      let ds := r.takeWhile Char.isDigit
      let r' := r.dropWhile Char.isDigit
      if ds.isEmpty then (⟨r, true, false⟩, 0)
      else if digitsValue ds < 2 ^ w then (⟨r', false, r'.isEmpty⟩, digitsValue ds)
      else (⟨r', true, r'.isEmpty⟩, 2 ^ w - 1)

/-- The manipulator `ws`: on a good stream, discard whitespace; reaching the end sets `eofbit`. -/
def skipWs (s : IStream) : IStream :=
  if s.failbit || s.eofbit then { s with failbit := true }
  else
    let r := s.rest.dropWhile isSpace
    ⟨r, false, r.isEmpty⟩

/-- The call `seekg(offset)` on a stream over `content`: nothing happens on a
failed stream; otherwise `eofbit` is cleared and the get position moves to the
absolute byte `offset` (a position past the end leaves nothing to read). -/
def seekg (content : List Char) (s : IStream) (offset : Nat) : IStream :=
  if s.failbit then s else ⟨content.drop offset, false, false⟩

/-! ## make_index.cc -/

/-- The two output streams of `make_index`, as the characters written so far. -/
structure OutFiles where
  output : List Char
  outindex : List Char
deriving DecidableEq, Repr

/-- The value of `tellp()`: the current write position of an output stream,
the number of characters put into it so far.  The position is printed as a
signed 64-bit `streamoff`; positions are left unbounded here, and the statements
about the reader carry the bound on the file length they need. -/
def tellp (written : List Char) : Nat := written.length

/-- One pass of the loop body of `make_index`:
`outindex << output.tellp() << '\n'; output << i << '\n';`. -/
def writeRecord (s : OutFiles) (i : Nat) : OutFiles :=
  let outindex := s.outindex ++ (decimal (tellp s.output) ++ ['\n'])
  let output := s.output ++ (decimal i ++ ['\n'])
  ⟨output, outindex⟩

/-- The writer loop of `make_index`, run over the values `values` in order,
starting from two empty files. -/
def writerLoop (values : List Nat) : OutFiles :=
  values.foldl writeRecord ⟨[], []⟩

/-- The program `make_index`: the loop runs for `i = 0, ..., 9`. -/
def make_index : OutFiles := writerLoop (List.range 10)

/-! ## read_indexed_data.cc -/

/-- The loop `for (i = 0; i < n; ++i) index >> offset;`, where `offset` is an
`unsigned long` (64 bits). -/
def readOffsets : Nat → IStream → Nat → IStream × Nat
  | 0, index, offset => (index, offset)
  | n + 1, index, offset =>
    let p := extractUnsigned 64 index offset
    readOffsets n p.1 p.2

/-- The faults the reader of the specification can report. -/
inductive ReadError where
  | IndexOutOfRange
  | SeekError
  | DecodeError
deriving DecidableEq, Repr

deriving instance DecidableEq for Except

/-- What a run of `read_indexed_data` leaves behind: the value of `x` it prints,
the final state of the data stream, and its exit status. -/
structure ReadRun where
  x : Nat
  input : IStream
  exitStatus : Nat
deriving DecidableEq, Repr

/-- The body of `main` in `read_indexed_data`, with the loop bound `n` (the
literal `5` of the source) as a parameter.  `offset0` and `x0` are the contents
the two uninitialised locals `offset` and `x` happen to have.  The program reads
`n` entries of the index, seeks the data file to the last value of `offset`,
extracts one `unsigned` (32 bits) and skips whitespace, prints `x`, and calls
`exit(0)`; it tests no stream state anywhere. -/
def readRun (n : Nat) (offset0 x0 : Nat) (indexFile inputFile : List Char) : ReadRun :=
  let offset := (readOffsets n (IStream.open indexFile) offset0).2
  let input := seekg inputFile (IStream.open inputFile) offset
  let p := extractUnsigned 32 input x0
  ⟨p.2, skipWs p.1, 0⟩

/-- The outcome of the lookup as a caller sees it: the program has no error
path, so the outcome is always the printed value. -/
def lookup (n : Nat) (offset0 x0 : Nat) (indexFile inputFile : List Char) :
    Except ReadError Nat :=
  Except.ok (readRun n offset0 x0 indexFile inputFile).x

/-- The program `read_indexed_data` as written: loop bound `5`. -/
def read_indexed_data (offset0 x0 : Nat) (indexFile inputFile : List Char) : ReadRun :=
  readRun 5 offset0 x0 indexFile inputFile

/-! ## Vocabulary for the statements about the text store -/

/-- The serialized byte length of one record of the data file: its decimal
digits and the newline. -/
def recordWidth (v : Nat) : Nat := (decimal v).length + 1

/-- A text file holding one decimal number per line. -/
def lines (xs : List Nat) : List Char := xs.flatMap (fun v => decimal v ++ ['\n'])

/-- The sum of the serialized byte lengths of the records `0, ..., i - 1`. -/
def cumulativeWidth (values : List Nat) (i : Nat) : Nat :=
  ((values.take i).map recordWidth).sum

/-- The starting byte of every record of `values` in a file in which `base`
bytes come first. -/
def offsetsFrom : Nat → List Nat → List Nat
  | _, [] => []
  | base, v :: vs => base :: offsetsFrom (base + recordWidth v) vs

/-! ## Binary records

A byte is a natural number below `256`; a `double` is its 64-bit pattern, a
natural number below `2 ^ 64`.  The byte order is the little-endian one; the
programs write and read on the same machine, and nothing below depends on the
choice. -/

/-- The size of a `double` in bytes. -/
def sizeofDouble : Nat := 8

/-- The `sizeofDouble` bytes of the object representation of a 64-bit pattern. -/
def encode64 (x : Nat) : List Nat :=
  (List.range sizeofDouble).map (fun k => x / 256 ^ k % 256)

/-- The 64-bit pattern held by a run of bytes. -/
def decode64 (bs : List Nat) : Nat :=
  bs.foldr (fun b acc => b + 256 * acc) 0

/-- The memory of an array of doubles, as `reinterpret_cast<char *>` exposes it:
the records back to back, with no padding. -/
def bytesOf (xs : List Nat) : List Nat := xs.flatMap encode64

/-- Element `k` of an array of doubles laid over the bytes `mem`. -/
def doubleAt (mem : List Nat) (k : Nat) : Nat :=
  decode64 ((mem.drop (sizeofDouble * k)).take sizeofDouble)

/-- The array of `n` doubles laid over the bytes `mem`. -/
def doublesOf (n : Nat) (mem : List Nat) : List Nat :=
  (List.range n).map (doubleAt mem)

/-! ## binaryCpp3.cc and binaryCpp2.cc: the buffered writers -/

/-- The state of a buffered writer: the in-memory buffer and the bytes handed to
the output file so far.  In `binaryCpp3` the buffer is a `vector<double>`
(a list of 64-bit patterns); in `binaryCpp2` it is the byte string of an
`ostringstream`. -/
structure BufWriter where
  buffer : List Nat
  file : List Nat
deriving DecidableEq, Repr

/-- One pass of the write loop of `binaryCpp3`: `push_back`, then, when
`buffer.size() >= MBUFFER`, write `buffer.size() * sizeof(double)` bytes and
clear the buffer. -/
def pushRecord3 (MBUFFER : Nat) (s : BufWriter) (x : Nat) : BufWriter :=
  let buffer := s.buffer ++ [x]
  if buffer.length ≥ MBUFFER then ⟨[], s.file ++ (bytesOf buffer).take (buffer.length * sizeofDouble)⟩
  else ⟨buffer, s.file⟩

/-- The statement after the loop of `binaryCpp3`: `if (!buffer.empty())`, write
the buffer and clear it. -/
def finalFlush3 (s : BufWriter) : BufWriter :=
  if !s.buffer.isEmpty then
    ⟨[], s.file ++ (bytesOf s.buffer).take (s.buffer.length * sizeofDouble)⟩
  else s

/-- The write phase of `binaryCpp3` for the records `xs` and the capacity `MBUFFER`. -/
def bufferedWrite3 (MBUFFER : Nat) (xs : List Nat) : BufWriter :=
  finalFlush3 (xs.foldl (pushRecord3 MBUFFER) ⟨[], []⟩)

/-- One pass of the write loop of `binaryCpp2`: append the bytes of `x` to the
string buffer, then, when `buffer.str().size() >= MBUFFER`, write the string and
reset it. -/
def pushRecord2 (MBUFFER : Nat) (s : BufWriter) (x : Nat) : BufWriter :=
  let buffer := s.buffer ++ encode64 x
  if buffer.length ≥ MBUFFER then ⟨[], s.file ++ buffer.take buffer.length⟩
  else ⟨buffer, s.file⟩

/-- The statement after the loop of `binaryCpp2`: `if (!buffer.str().empty())`,
write the string and reset it. -/
def finalFlush2 (s : BufWriter) : BufWriter :=
  if !s.buffer.isEmpty then ⟨[], s.file ++ s.buffer.take s.buffer.length⟩ else s

/-- The write phase of `binaryCpp2` for the records `xs` and the capacity `MBUFFER`. -/
def bufferedWrite2 (MBUFFER : Nat) (xs : List Nat) : BufWriter :=
  finalFlush2 (xs.foldl (pushRecord2 MBUFFER) ⟨[], []⟩)

/-- The records of the programs: `val i` stands for the 64-bit pattern of
`sqrt(i)/double(i)`, for `i = 0, ..., n - 1`. -/
def records (val : Nat → Nat) (n : Nat) : List Nat := (List.range n).map val

/-- The write phase of `binaryCpp3` as written: 1,000,000 records, capacity 1024 doubles. -/
def binaryCpp3_write (val : Nat → Nat) : BufWriter := bufferedWrite3 1024 (records val 1000000)

/-- The write phase of `binaryCpp2` as written: 10,000 records, capacity 1024 bytes. -/
def binaryCpp2_write (val : Nat → Nat) : BufWriter := bufferedWrite2 1024 (records val 10000)

/-- Writing every record straight to the file, with no buffer. -/
def directWrite (xs : List Nat) : List Nat := xs.flatMap encode64

/-! ## The read-back loop of binaryCpp3.cc and binaryCpp2.cc -/

/-- A binary input stream: the bytes from the get position on, and the state bits. -/
structure BStream where
  rest : List Nat
  failbit : Bool
  eofbit : Bool
deriving DecidableEq, Repr

/-- A freshly opened binary input file. -/
def BStream.open (content : List Nat) : BStream := ⟨content, false, false⟩

/-- The call `in.read(p, n)` over a variable whose bytes are `x`: a stream that
is not good gets `failbit` and stores nothing; with `n` bytes left they are
stored; otherwise the bytes that are left are stored in front of the old ones
and `eofbit` and `failbit` are set. -/
def BStream.read (s : BStream) (n : Nat) (x : List Nat) : BStream × List Nat :=
  if s.failbit || s.eofbit then ({ s with failbit := true }, x)
  else if n ≤ s.rest.length then (⟨s.rest.drop n, false, false⟩, s.rest.take n)
  else (⟨[], true, true⟩, s.rest ++ x.drop s.rest.length)

/-- The test `!in.eof() && !in.fail()`. -/
def BStream.ok (s : BStream) : Bool := !s.eofbit && !s.failbit

/-- The loop `do { in.read(&x, sizeof(double)); if (!in.eof() && !in.fail())
data.push_back(x); } while (!in.eof() && !in.fail());` from the stream state
`s`, the bytes `x` of the variable and the vector `data`. -/
def readBackLoop (s : BStream) (x : List Nat) (data : List Nat) : List Nat :=
  let p := s.read sizeofDouble x
  let data' := if p.1.ok then data ++ [decode64 p.2] else data
  if _h : p.1.ok = true then readBackLoop p.1 p.2 data' else data'
termination_by s.rest.length
decreasing_by
  have h2 : (s.read sizeofDouble x).1.ok = true := by assumption
  revert h2
  unfold BStream.read BStream.ok
  by_cases h1 : (s.failbit || s.eofbit) = true
  · rw [if_pos h1]
    simp only [Bool.or_eq_true] at h1
    rcases h1 with h1 | h1 <;> simp [h1]
  · rw [if_neg h1]
    by_cases h3 : sizeofDouble ≤ s.rest.length
    · rw [if_pos h3]
      intro _
      simp [sizeofDouble] at h3 ⊢
      omega
    · rw [if_neg h3]
      simp

/-- The read phase of `binaryCpp3` and `binaryCpp2` on a file with the bytes
`content`; `x0` is what the uninitialised `double x` holds. -/
def readBack (content : List Nat) (x0 : List Nat) : List Nat :=
  readBackLoop (BStream.open content) x0 []

/-! ## binaryCpp.cc and binaryC.c: one write, one read -/

/-- The conversion of a byte count to the `int` the programs store it in
(32 bits, two's complement). -/
def toInt32 (n : Nat) : Int := ((n + 2 ^ 31) % 2 ^ 32 : Nat) - 2 ^ 31

/-- The call `write(fd, buf, count)` on a new regular file, `mem` being the bytes
at `buf`: the file content and the return value. -/
def posixWrite (mem : List Nat) (count : Nat) : List Nat × Nat :=
  (mem.take count, (mem.take count).length)

/-- The call `read(fd, buf, count)` at the start of a file: the bytes delivered
and the return value. -/
def posixRead (file : List Nat) (count : Nat) : List Nat × Nat :=
  (file.take count, (file.take count).length)

/-- What `binaryCpp` and `binaryC` print from: the two return values and the two
buffers, and the file in between. -/
structure BinaryRun where
  file : List Nat
  rvWrite : Int
  rvRead : Int
  dbuffer : List Nat
  dbuffer2 : List Nat
deriving DecidableEq, Repr

/-- The first half of `main` in `binaryCpp` and `binaryC` for a filled buffer
`dbuffer` of `MBUFFERSIZE` doubles; `mem2` is the memory of `dbuffer2` before
the read (zeros for the vector, indeterminate after `malloc`).  The file is
written with one `write` of `MBUFFERSIZE * sizeof(double)` bytes and read with
one `read` of as many bytes into `dbuffer2`. -/
def binaryRoundTrip (dbuffer : List Nat) (mem2 : List Nat) : BinaryRun :=
  let MBUFFERSIZE := dbuffer.length
  let w := posixWrite (bytesOf dbuffer) (MBUFFERSIZE * sizeofDouble)
  let r := posixRead w.1 (MBUFFERSIZE * sizeofDouble)
  let mem2' := r.1 ++ mem2.drop r.1.length
  ⟨w.1, toInt32 w.2, toInt32 r.2, dbuffer, doublesOf MBUFFERSIZE mem2'⟩

/-- The programs `binaryCpp` and `binaryC` as written: `MBUFFERSIZE = 1000000`. -/
def binaryCpp (val : Nat → Nat) (mem2 : List Nat) : BinaryRun :=
  binaryRoundTrip (records val 1000000) mem2

/-! ## intSizes.cc -/

/-- The constant `INT8_MAX` of `<cstdint>`. -/
def INT8_MAX : Nat := 127

/-- The size of `int` in bytes ("our usual 32-bit int"). -/
def sizeofInt : Nat := 4

/-- The size of `smaller_int`, that is `int8_t`, in bytes. -/
def sizeofSmallerInt : Nat := 1

/-- The conversion `smaller_int(i)` of an `int` to `int8_t`. -/
def toInt8 (i : Int) : Int := (i + 128) % 256 - 128

/-- The first fill loop: `for (int i = 0; i < bound; ++i) vi.push_back(i);`. -/
def fillInt (bound : Nat) : List Int :=
  (List.range bound).foldl (fun (v : List Int) (i : Nat) => v ++ [(i : Int)]) []

/-- The second fill loop: `for (int i = 0; i < bound; ++i) vi8.push_back(smaller_int(i));`. -/
def fillInt8 (bound : Nat) : List Int :=
  (List.range bound).foldl (fun (v : List Int) (i : Nat) => v ++ [toInt8 (i : Int)]) []

/-- The object representation of a signed integer of `size` bytes (two's
complement, little-endian). -/
def encodeInt (size : Nat) (i : Int) : List Nat :=
  (List.range size).map (fun k => (i % 256 ^ size).toNat / 256 ^ k % 256)

/-- The two vectors of `intSizes` and the two files it writes. -/
structure IntSizesRun where
  vi : List Int
  vi8 : List Int
  count1 : Nat
  count2 : Nat
  intout : List Nat
  int8out : List Nat
deriving DecidableEq, Repr

/-- The write phase of `intSizes` with the loop bound as a parameter: the fill
loops, the byte counts `vi.size() * sizeof(int)` and
`vi8.size() * sizeof(smaller_int)` passed to `write`, and the bytes written. -/
def intSizesRun (bound : Nat) : IntSizesRun :=
  let vi := fillInt bound
  let vi8 := fillInt8 bound
  let count1 := vi.length * sizeofInt
  let count2 := vi8.length * sizeofSmallerInt
  ⟨vi, vi8, count1, count2,
    (vi.flatMap (encodeInt sizeofInt)).take count1,
    (vi8.flatMap (encodeInt sizeofSmallerInt)).take count2⟩

/-- The program `intSizes` as written: both loops run for `i < INT8_MAX`. -/
def intSizes : IntSizesRun := intSizesRun INT8_MAX

/-! ## Decimal printing and parsing -/

theorem digitChar_toNat (n : Nat) : (digitChar n).toNat = 48 + n % 10 := by
  have h : n % 10 < 10 := Nat.mod_lt _ (by decide)
  unfold digitChar
  generalize n % 10 = d at h
  interval_cases d <;> rfl

theorem digitChar_isDigit (n : Nat) : (digitChar n).isDigit = true := by
  have h : n % 10 < 10 := Nat.mod_lt _ (by decide)
  unfold digitChar
  generalize n % 10 = d at h
  interval_cases d <;> rfl

theorem digitsValue_append (xs ys : List Char) :
    digitsValue (xs ++ ys) = digitsValue xs * 10 ^ ys.length + digitsValue ys := by
  induction ys using List.reverseRecOn generalizing xs with
  | nil => simp [digitsValue]
  | append_singleton ys c ih =>
    have h1 : digitsValue (xs ++ (ys ++ [c])) = digitsValue (xs ++ ys) * 10 + (c.toNat - 48) := by
      simp [digitsValue, List.foldl_append]
    have h2 : digitsValue (ys ++ [c]) = digitsValue ys * 10 + (c.toNat - 48) := by
      simp [digitsValue, List.foldl_append]
    rw [h1, h2, ih]
    simp [pow_succ]
    ring

theorem digitsValue_snoc (xs : List Char) (c : Char) :
    digitsValue (xs ++ [c]) = digitsValue xs * 10 + (c.toNat - 48) := by
  simp [digitsValue, List.foldl_append]

theorem decimalAux_spec (fuel : Nat) : ∀ (n : Nat) (acc : List Char), n < fuel →
    ∃ ds : List Char, decimalAux fuel n acc = ds ++ acc ∧ ds ≠ [] ∧
      (∀ c ∈ ds, c.isDigit = true) ∧ digitsValue ds = n := by
  induction fuel with
  | zero => intro n acc h; omega
  | succ fuel ih =>
    intro n acc h
    by_cases hn : n < 10
    · refine ⟨[digitChar n], ?_, by simp, ?_, ?_⟩
      · simp [decimalAux, hn]
      · intro c hc
        simp at hc
        subst hc
        exact digitChar_isDigit n
      · simp [digitsValue, digitChar_toNat]
        omega
    · have hlt : n / 10 < fuel := by omega
      obtain ⟨ds, h1, h2, h3, h4⟩ := ih (n / 10) (digitChar n :: acc) hlt
      refine ⟨ds ++ [digitChar n], ?_, by simp, ?_, ?_⟩
      · simp [decimalAux, hn, h1]
      · intro c hc
        rcases List.mem_append.1 hc with hc | hc
        · exact h3 c hc
        · simp at hc
          subst hc
          exact digitChar_isDigit n
      · rw [digitsValue_snoc, h4, digitChar_toNat]
        omega

theorem decimal_ne_nil (n : Nat) : decimal n ≠ [] := by
  obtain ⟨ds, h1, h2, _, _⟩ := decimalAux_spec (n + 1) n [] (by omega)
  simp [decimal, h1, h2]

theorem decimal_isDigit (n : Nat) : ∀ c ∈ decimal n, c.isDigit = true := by
  obtain ⟨ds, h1, _, h3, _⟩ := decimalAux_spec (n + 1) n [] (by omega)
  simpa [decimal, h1] using h3

theorem digitsValue_decimal (n : Nat) : digitsValue (decimal n) = n := by
  obtain ⟨ds, h1, _, _, h4⟩ := decimalAux_spec (n + 1) n [] (by omega)
  simpa [decimal, h1] using h4

theorem isDigit_not_isSpace (c : Char) (h : c.isDigit = true) : isSpace c = false := by
  have h1 : 48 ≤ c.val ∧ c.val ≤ 57 := by simpa [Char.isDigit] using h
  have h48 : (48 : UInt32).toNat = 48 := rfl
  have h57 : (57 : UInt32).toNat = 57 := rfl
  have hlo : 48 ≤ c.toNat := by
    have := UInt32.le_def.1 h1.1
    simpa [Char.toNat] using this
  simp only [isSpace, Bool.or_eq_false_iff, beq_eq_false_iff_ne, ne_eq]
  refine ⟨⟨⟨⟨⟨?_, ?_⟩, ?_⟩, ?_⟩, ?_⟩, ?_⟩ <;>
    · intro hc
      rw [hc] at hlo
      revert hlo
      decide

/-! ## Formatted extraction on well-formed text -/

theorem dropWhile_append_all {p : Char → Bool} (pre l : List Char)
    (h : ∀ c ∈ pre, p c = true) : (pre ++ l).dropWhile p = l.dropWhile p := by
  induction pre with
  | nil => rfl
  | cons a pre ih =>
    have hrest : ∀ c ∈ pre, p c = true := fun c hc => h c (List.mem_cons_of_mem a hc)
    rw [List.cons_append, List.dropWhile_cons_of_pos (h a (List.mem_cons_self a pre))]
    exact ih hrest

theorem takeWhile_append_all {p : Char → Bool} (pre l : List Char)
    (h : ∀ c ∈ pre, p c = true) : (pre ++ l).takeWhile p = pre ++ l.takeWhile p := by
  induction pre with
  | nil => rfl
  | cons a pre ih =>
    have hrest : ∀ c ∈ pre, p c = true := fun c hc => h c (List.mem_cons_of_mem a hc)
    rw [List.cons_append, List.takeWhile_cons_of_pos (h a (List.mem_cons_self a pre)),
      ih hrest, List.cons_append]

theorem takeWhile_stop {p : Char → Bool} (l : List Char)
    (h : ∀ c, l.head? = some c → p c = false) : l.takeWhile p = [] := by
  cases l with
  | nil => rfl
  | cons a l => simp [List.takeWhile_cons, h a rfl]

theorem dropWhile_stop {p : Char → Bool} (l : List Char)
    (h : ∀ c, l.head? = some c → p c = false) : l.dropWhile p = l := by
  cases l with
  | nil => rfl
  | cons a l => simp [List.dropWhile_cons, h a rfl]

/-- Extraction from a good stream that holds whitespace, a digit run and then
something that is not a digit (or nothing) yields the value of the run. -/
theorem extractUnsigned_run (w : Nat) (pre ds tail : List Char) (v : Nat)
    (hpre : ∀ c ∈ pre, isSpace c = true) (hne : ds ≠ [])
    (hds : ∀ c ∈ ds, c.isDigit = true)
    (htail : ∀ c, tail.head? = some c → c.isDigit = false)
    (hval : digitsValue ds < 2 ^ w) :
    extractUnsigned w ⟨pre ++ (ds ++ tail), false, false⟩ v =
      (⟨tail, false, tail.isEmpty⟩, digitsValue ds) := by
  have hsp : ∀ c, (ds ++ tail).head? = some c → isSpace c = false := by
    intro c hc
    cases ds with
    | nil => exact absurd rfl hne
    | cons d ds =>
      simp at hc
      subst hc
      exact isDigit_not_isSpace _ (hds _ (by simp))
  have h1 : (pre ++ (ds ++ tail)).dropWhile isSpace = ds ++ tail := by
    rw [dropWhile_append_all _ _ hpre, dropWhile_stop _ hsp]
  have h2 : (ds ++ tail).takeWhile Char.isDigit = ds := by
    rw [takeWhile_append_all _ _ hds, takeWhile_stop _ htail, List.append_nil]
  have h3 : (ds ++ tail).dropWhile Char.isDigit = tail := by
    rw [dropWhile_append_all _ _ hds, dropWhile_stop _ htail]
  have h4 : (ds ++ tail).isEmpty = false := by
    cases ds with
    | nil => exact absurd rfl hne
    | cons d ds => rfl
  have h5 : ds.isEmpty = false := by
    cases ds with
    | nil => exact absurd rfl hne
    | cons d ds => rfl
  simp [extractUnsigned, h1, h2, h3, h4, h5, hval]

/-- Extraction from a good stream that holds only whitespace fails and leaves
the variable alone. -/
theorem extractUnsigned_blank (w : Nat) (pre : List Char) (v : Nat)
    (hpre : ∀ c ∈ pre, isSpace c = true) :
    extractUnsigned w ⟨pre, false, false⟩ v = (⟨[], true, true⟩, v) := by
  have h1 : pre.dropWhile isSpace = [] := by
    have := dropWhile_append_all (p := isSpace) pre [] hpre
    simpa using this
  simp [extractUnsigned, h1]

/-- Extraction from a failed stream changes neither the stream nor the variable. -/
theorem extractUnsigned_failed (w : Nat) (s : IStream) (v : Nat) (h : s.failbit = true) :
    extractUnsigned w s v = (s, v) := by
  cases s with
  | mk r f e =>
    simp at h
    subst h
    simp [extractUnsigned]

/-! ## The writer loop -/

theorem lines_nil : lines [] = [] := rfl

theorem lines_cons (v : Nat) (vs : List Nat) :
    lines (v :: vs) = decimal v ++ ('\n' :: lines vs) := by
  simp [lines, List.flatMap_cons]

theorem lines_append (xs ys : List Nat) : lines (xs ++ ys) = lines xs ++ lines ys := by
  simp [lines, List.flatMap_append]

theorem length_lines (xs : List Nat) : (lines xs).length = (xs.map recordWidth).sum := by
  induction xs with
  | nil => rfl
  | cons v vs ih =>
    rw [lines_cons]
    simp [ih, recordWidth]
    omega

theorem foldl_writeRecord (values : List Nat) : ∀ s : OutFiles,
    values.foldl writeRecord s =
      ⟨s.output ++ lines values, s.outindex ++ lines (offsetsFrom s.output.length values)⟩ := by
  induction values with
  | nil => intro s; simp [lines_nil, offsetsFrom]
  | cons v vs ih =>
    intro s
    rw [List.foldl_cons, ih]
    simp [writeRecord, tellp, offsetsFrom, lines_cons, recordWidth, Nat.add_assoc]

theorem writerLoop_eq (values : List Nat) :
    writerLoop values = ⟨lines values, lines (offsetsFrom 0 values)⟩ := by
  simp [writerLoop, foldl_writeRecord]

theorem length_offsetsFrom (values : List Nat) : ∀ base,
    (offsetsFrom base values).length = values.length := by
  induction values with
  | nil => intro base; rfl
  | cons v vs ih => intro base; simp [offsetsFrom, ih]

theorem offsetsFrom_getElem? (values : List Nat) : ∀ (base i : Nat), i < values.length →
    (offsetsFrom base values)[i]? = some (base + cumulativeWidth values i) := by
  induction values with
  | nil => intro base i h; simp at h
  | cons v vs ih =>
    intro base i h
    cases i with
    | zero => simp [offsetsFrom, cumulativeWidth]
    | succ i =>
      have h2 : i < vs.length := by simpa using h
      simp [offsetsFrom, ih _ i h2, cumulativeWidth, Nat.add_assoc]

theorem offsetsFrom_eq_map (values : List Nat) (base : Nat) :
    offsetsFrom base values =
      (List.range values.length).map (fun i => base + cumulativeWidth values i) := by
  apply List.ext_getElem?
  intro i
  by_cases h : i < values.length
  · rw [offsetsFrom_getElem? values base i h]
    simp [List.getElem?_map, List.getElem?_range h]
  · have h1 : (offsetsFrom base values).length ≤ i := by
      rw [length_offsetsFrom]; omega
    rw [List.getElem?_eq_none h1]
    symm
    apply List.getElem?_eq_none
    simp
    omega

theorem cumulativeWidth_le (values : List Nat) (i : Nat) :
    cumulativeWidth values i ≤ (lines values).length := by
  have h : lines values = lines (values.take i) ++ lines (values.drop i) := by
    rw [← lines_append, List.take_append_drop]
  rw [h, List.length_append, length_lines]
  exact Nat.le_add_right _ _

theorem drop_cumulativeWidth (values : List Nat) (i : Nat) :
    (lines values).drop (cumulativeWidth values i) = lines (values.drop i) := by
  have h : lines values = lines (values.take i) ++ lines (values.drop i) := by
    rw [← lines_append, List.take_append_drop]
  have hl : cumulativeWidth values i = (lines (values.take i)).length := by
    rw [length_lines]; rfl
  rw [hl]
  conv_lhs => rw [h]
  exact List.drop_left _ _

theorem take_cumulativeWidth (values : List Nat) (i : Nat) :
    (lines values).take (cumulativeWidth values i) = lines (values.take i) := by
  have h : lines values = lines (values.take i) ++ lines (values.drop i) := by
    rw [← lines_append, List.take_append_drop]
  have hl : cumulativeWidth values i = (lines (values.take i)).length := by
    rw [length_lines]; rfl
  rw [hl]
  conv_lhs => rw [h]
  exact List.take_left _ _

/-! ## The index scan -/

theorem head_newline_lines (xs : List Nat) :
    ∀ c, ('\n' :: lines xs).head? = some c → c.isDigit = false := by
  intro c hc
  simp at hc
  subst hc
  rfl

theorem isSpace_newline : ∀ c ∈ ['\n'], isSpace c = true := by
  intro c hc
  simp at hc
  subst hc
  rfl

/-- One extraction from an index that still holds the entry `o` first. -/
theorem extract_entry (w : Nat) (pre : List Char) (o : Nat) (os : List Nat) (v : Nat)
    (hpre : ∀ c ∈ pre, isSpace c = true) (ho : o < 2 ^ w) :
    extractUnsigned w ⟨pre ++ lines (o :: os), false, false⟩ v =
      (⟨'\n' :: lines os, false, false⟩, o) := by
  rw [lines_cons]
  have h := extractUnsigned_run w pre (decimal o) ('\n' :: lines os) v hpre
    (decimal_ne_nil o) (decimal_isDigit o) (head_newline_lines os)
    (by rw [digitsValue_decimal]; exact ho)
  rw [h, digitsValue_decimal]
  rfl

/-- Reading `k + 1` entries from an index that holds more than `k` entries ends
with the entry number `k` (zero-based) in `offset`, on a good stream. -/
theorem readOffsets_entry (k : Nat) : ∀ (offs : List Nat) (pre : List Char) (v o : Nat),
    (∀ c ∈ pre, isSpace c = true) → (∀ a ∈ offs, a < 2 ^ 64) → offs[k]? = some o →
    readOffsets (k + 1) ⟨pre ++ lines offs, false, false⟩ v =
      (⟨'\n' :: lines (offs.drop (k + 1)), false, false⟩, o) := by
  induction k with
  | zero =>
    intro offs pre v o hpre hb hk
    cases offs with
    | nil => simp at hk
    | cons a as =>
      simp at hk
      subst hk
      simp only [readOffsets]
      rw [extract_entry 64 pre a as v hpre (hb a (by simp))]
      simp
  | succ k ih =>
    intro offs pre v o hpre hb hk
    cases offs with
    | nil => simp at hk
    | cons a as =>
      have hk2 : as[k]? = some o := by simpa using hk
      rw [readOffsets]
      rw [extract_entry 64 pre a as v hpre (hb a (by simp))]
      have := ih as ['\n'] a o isSpace_newline (fun b hb2 => hb b (by simp [hb2])) hk2
      simpa using this

/-- On a failed index stream the scan changes nothing. -/
theorem readOffsets_failed (k : Nat) : ∀ (s : IStream) (v : Nat), s.failbit = true →
    readOffsets k s v = (s, v) := by
  induction k with
  | zero => intro s v _; rfl
  | succ k ih =>
    intro s v h
    rw [readOffsets]
    rw [extractUnsigned_failed 64 s v h]
    exact ih s v h

/-- Reading more entries than a non-empty index holds ends with the last entry
in `offset`, on a failed stream. -/
theorem readOffsets_exhausted (offs : List Nat) (k : Nat) (v o : Nat)
    (hb : ∀ a ∈ offs, a < 2 ^ 64) (hlast : offs.getLast? = some o)
    (hk : offs.length < k) :
    readOffsets k (IStream.open (lines offs)) v = (⟨[], true, true⟩, o) := by
  have hpos : 0 < offs.length := by
    cases offs with
    | nil => simp at hlast
    | cons a as => simp
  obtain ⟨m, hm⟩ : ∃ m, offs.length = m + 1 := ⟨offs.length - 1, by omega⟩
  obtain ⟨j, hj⟩ : ∃ j, k = (m + 1) + (j + 1) := ⟨k - (m + 1) - 1, by omega⟩
  have hget : offs[m]? = some o := by
    rw [List.getLast?_eq_getElem?] at hlast
    simpa [hm] using hlast
  have hsplit : ∀ (a b : Nat) (s : IStream) (v : Nat),
      readOffsets (a + b) s v = readOffsets b (readOffsets a s v).1 (readOffsets a s v).2 := by
    intro a
    induction a with
    | zero => intro b s v; simp [readOffsets]
    | succ a ih =>
      intro b s v
      have : a + 1 + b = (a + b) + 1 := by omega
      rw [this, readOffsets, readOffsets]
      exact ih b _ _
  have h1 := readOffsets_entry m offs [] v o (by simp) hb hget
  have hdrop : offs.drop (m + 1) = [] := by
    apply List.drop_eq_nil_of_le; omega
  rw [hdrop, lines_nil] at h1
  simp only [List.nil_append] at h1
  rw [hj, hsplit, IStream.open, h1]
  rw [readOffsets]
  rw [extractUnsigned_blank 64 ['\n'] o isSpace_newline]
  exact readOffsets_failed j _ _ rfl

/-! ## The lookup on the files of the writer -/

theorem head_lines_not_space (xs : List Nat) :
    ∀ c, (lines xs).head? = some c → isSpace c = false := by
  intro c hc
  cases xs with
  | nil => simp [lines_nil] at hc
  | cons v vs =>
    rw [lines_cons] at hc
    have hne := decimal_ne_nil v
    have hd := decimal_isDigit v
    cases hdv : decimal v with
    | nil => exact absurd hdv hne
    | cons d ds =>
      rw [hdv] at hc hd
      simp at hc
      subst hc
      exact isDigit_not_isSpace _ (hd _ (by simp))

theorem offsets_bounded (values : List Nat) (hlen : (lines values).length < 2 ^ 64) :
    ∀ a ∈ offsetsFrom 0 values, a < 2 ^ 64 := by
  intro a ha
  rw [offsetsFrom_eq_map] at ha
  simp only [List.mem_map, List.mem_range] at ha
  obtain ⟨i, _, rfl⟩ := ha
  have := cumulativeWidth_le values i
  omega

/-- The value of `offset` after the scan of `i + 1` entries of the index written
for `values`, when record `i` exists. -/
theorem scan_offset (values : List Nat) (offset0 i : Nat)
    (hlen : (lines values).length < 2 ^ 64) (hi : i < values.length) :
    (readOffsets (i + 1) (IStream.open (lines (offsetsFrom 0 values))) offset0).2 =
      cumulativeWidth values i := by
  have hget := offsetsFrom_getElem? values 0 i hi
  have h := readOffsets_entry i (offsetsFrom 0 values) [] offset0 _ (by simp)
    (offsets_bounded values hlen) hget
  simp only [List.nil_append] at h
  rw [IStream.open, h]
  simp

/-- Seeking the data file written for `values` to the start of record `i` and
extracting one `unsigned`, then whitespace, decodes that record. -/
theorem decode_record (values : List Nat) (x0 i v : Nat)
    (hv : ∀ a ∈ values, a < 2 ^ 32) (hi : values[i]? = some v) :
    let p := extractUnsigned 32
      (seekg (lines values) (IStream.open (lines values)) (cumulativeWidth values i)) x0
    p.2 = v ∧ skipWs p.1 =
      ⟨lines (values.drop (i + 1)), false, (lines (values.drop (i + 1))).isEmpty⟩ := by
  have hil : i < values.length := by
    rcases Nat.lt_or_ge i values.length with h | h
    · exact h
    · rw [List.getElem?_eq_none h] at hi
      exact absurd hi (by simp)
  have hv2 : values[i] = v := by
    rw [List.getElem?_eq_getElem hil] at hi
    simpa using hi
  have hmem : v ∈ values := hv2 ▸ List.getElem_mem hil
  have hdrop : values.drop i = v :: values.drop (i + 1) := by
    rw [← hv2]
    exact List.drop_eq_getElem_cons hil
  simp only [seekg, IStream.open, Bool.false_eq_true, if_false]
  rw [drop_cumulativeWidth, hdrop]
  have h := extract_entry 32 [] v (values.drop (i + 1)) x0 (by simp) (hv v hmem)
  simp only [List.nil_append] at h
  rw [h]
  have hws : ('\n' :: lines (values.drop (i + 1))).dropWhile isSpace =
      lines (values.drop (i + 1)) := by
    have := dropWhile_append_all (p := isSpace) ['\n'] (lines (values.drop (i + 1)))
      isSpace_newline
    simp only [List.singleton_append] at this
    rw [this, dropWhile_stop _ (head_lines_not_space _)]
  simp [skipWs, hws]

/-- The whole run of the reader with loop bound `i + 1` on the files written
for `values`: it decodes record `i` and leaves the data stream good. -/
theorem readRun_record (values : List Nat) (offset0 x0 i v : Nat)
    (hv : ∀ a ∈ values, a < 2 ^ 32) (hlen : (lines values).length < 2 ^ 64)
    (hi : values[i]? = some v) :
    readRun (i + 1) offset0 x0 (writerLoop values).outindex (writerLoop values).output =
      ⟨v, ⟨lines (values.drop (i + 1)), false, (lines (values.drop (i + 1))).isEmpty⟩, 0⟩ := by
  have hil : i < values.length := by
    rcases Nat.lt_or_ge i values.length with h | h
    · exact h
    · rw [List.getElem?_eq_none h] at hi
      exact absurd hi (by simp)
  have hd := decode_record values x0 i v hv hi
  simp only at hd
  rw [writerLoop_eq]
  simp only [readRun]
  rw [scan_offset values offset0 i hlen hil, hd.1, hd.2]

/-- The whole run of the reader with a loop bound above the number of records
of a non-empty store: the scan stops at the last entry, and the run decodes the
last record. -/
theorem readRun_exhausted (values : List Nat) (offset0 x0 n v : Nat)
    (hv : ∀ a ∈ values, a < 2 ^ 32) (hlen : (lines values).length < 2 ^ 64)
    (hlast : values.getLast? = some v) (hn : values.length < n) :
    readOffsets n (IStream.open (writerLoop values).outindex) offset0 =
        (⟨[], true, true⟩, cumulativeWidth values (values.length - 1)) ∧
    readRun n offset0 x0 (writerLoop values).outindex (writerLoop values).output =
      ⟨v, ⟨[], false, true⟩, 0⟩ := by
  have hpos : 0 < values.length := by
    cases values with
    | nil => simp at hlast
    | cons a as => simp
  have hi : values[values.length - 1]? = some v := by
    rw [List.getLast?_eq_getElem?] at hlast
    exact hlast
  have hoffs : (offsetsFrom 0 values).getLast? =
      some (cumulativeWidth values (values.length - 1)) := by
    rw [List.getLast?_eq_getElem?, length_offsetsFrom,
      offsetsFrom_getElem? values 0 (values.length - 1) (by omega)]
    simp
  have hscan := readOffsets_exhausted (offsetsFrom 0 values) n offset0 _
    (offsets_bounded values hlen) hoffs (by rw [length_offsetsFrom]; exact hn)
  have hd := decode_record values x0 (values.length - 1) v hv hi
  simp only at hd
  have hdrop : values.drop (values.length - 1 + 1) = [] := by
    apply List.drop_eq_nil_of_le; omega
  rw [hdrop, lines_nil] at hd
  rw [writerLoop_eq]
  refine ⟨hscan, ?_⟩
  simp only [readRun]
  rw [hscan]
  simp only
  rw [hd.1, hd.2]
  rfl

theorem digitsValue_take_le (ds : List Char) (m : Nat) :
    digitsValue (ds.take m) ≤ digitsValue ds := by
  have h := digitsValue_append (ds.take m) (ds.drop m)
  rw [List.take_append_drop] at h
  rw [h]
  have hp : 0 < 10 ^ (ds.drop m).length := Nat.pow_pos (by decide)
  calc digitsValue (ds.take m) ≤ digitsValue (ds.take m) * 10 ^ (ds.drop m).length :=
        Nat.le_mul_of_pos_right _ hp
    _ ≤ _ := Nat.le_add_right _ _

/-- The run of the reader with loop bound `i + 1` on the index written for
`values` and the data file cut down to its first half, for a record that does
not lie wholly inside the kept half. -/
theorem readRun_truncated (values : List Nat) (offset0 x0 i v : Nat)
    (hv : ∀ a ∈ values, a < 2 ^ 32) (hlen : (lines values).length < 2 ^ 64)
    (hi : values[i]? = some v)
    (hex : (lines values).length / 2 < cumulativeWidth values i + recordWidth v) :
    (readRun (i + 1) offset0 x0 (writerLoop values).outindex
        ((writerLoop values).output.take ((lines values).length / 2))).x =
      (if (lines values).length / 2 ≤ cumulativeWidth values i then x0
        else digitsValue ((decimal v).take
          ((lines values).length / 2 - cumulativeWidth values i))) ∧
    ((lines values).length / 2 ≤ cumulativeWidth values i →
      (readRun (i + 1) offset0 x0 (writerLoop values).outindex
        ((writerLoop values).output.take ((lines values).length / 2))).input.failbit = true) := by
  have hil : i < values.length := by
    rcases Nat.lt_or_ge i values.length with h | h
    · exact h
    · rw [List.getElem?_eq_none h] at hi
      exact absurd hi (by simp)
  have hv2 : values[i] = v := by
    rw [List.getElem?_eq_getElem hil] at hi
    simpa using hi
  have hmem : v ∈ values := hv2 ▸ List.getElem_mem hil
  have hdrop : values.drop i = v :: values.drop (i + 1) := by
    rw [← hv2]
    exact List.drop_eq_getElem_cons hil
  generalize hhalf : (lines values).length / 2 = half at hex ⊢
  rw [writerLoop_eq]
  simp only [readRun]
  rw [scan_offset values offset0 i hlen hil]
  simp only [seekg, IStream.open, Bool.false_eq_true, if_false]
  have hrest : ((lines values).take half).drop (cumulativeWidth values i) =
      (decimal v).take (half - cumulativeWidth values i) := by
    rw [List.drop_take, drop_cumulativeWidth, hdrop, lines_cons]
    rw [List.take_append_of_le_length]
    unfold recordWidth at hex
    omega
  rw [hrest]
  by_cases hc : half ≤ cumulativeWidth values i
  · have hz : half - cumulativeWidth values i = 0 := by omega
    rw [hz, List.take_zero, extractUnsigned_blank 32 [] x0 (by simp)]
    simp [skipWs, hc]
  · have hpos : 0 < half - cumulativeWidth values i := by omega
    have hne : (decimal v).take (half - cumulativeWidth values i) ≠ [] := by
      have hd := decimal_ne_nil v
      intro h
      rw [List.take_eq_nil_iff] at h
      rcases h with h | h
      · omega
      · exact hd h
    have hds : ∀ c ∈ (decimal v).take (half - cumulativeWidth values i), c.isDigit = true :=
      fun c hc2 => decimal_isDigit v c (List.mem_of_mem_take hc2)
    have hval : digitsValue ((decimal v).take (half - cumulativeWidth values i)) < 2 ^ 32 := by
      have h1 := digitsValue_take_le (decimal v) (half - cumulativeWidth values i)
      rw [digitsValue_decimal] at h1
      have h2 := hv v hmem
      omega
    have h := extractUnsigned_run 32 [] _ [] x0 (by simp) hne hds (by simp) hval
    simp only [List.nil_append, List.append_nil] at h
    rw [h]
    simp [hc]

/-! ## Fixed-width records -/

theorem length_encode64 (x : Nat) : (encode64 x).length = sizeofDouble := by
  simp [encode64]

theorem decode64_encode64 (x : Nat) : decode64 (encode64 x) = x % 2 ^ 64 := by
  simp [encode64, decode64, sizeofDouble, List.range_succ]
  omega

theorem bytesOf_nil : bytesOf [] = [] := rfl

theorem bytesOf_cons (x : Nat) (xs : List Nat) : bytesOf (x :: xs) = encode64 x ++ bytesOf xs := by
  simp [bytesOf, List.flatMap_cons]

theorem bytesOf_append (xs ys : List Nat) : bytesOf (xs ++ ys) = bytesOf xs ++ bytesOf ys := by
  simp [bytesOf, List.flatMap_append]

theorem length_bytesOf (xs : List Nat) : (bytesOf xs).length = xs.length * sizeofDouble := by
  induction xs with
  | nil => simp [bytesOf_nil]
  | cons x xs ih =>
    rw [bytesOf_cons, List.length_append, length_encode64, ih, List.length_cons]
    ring

theorem take_bytesOf (xs : List Nat) :
    (bytesOf xs).take (xs.length * sizeofDouble) = bytesOf xs := by
  rw [← length_bytesOf, List.take_length]

/-- Element `k` of the array laid over the bytes of `xs`, whatever follows them. -/
theorem doubleAt_bytesOf (xs tail : List Nat) (k x : Nat) (hk : xs[k]? = some x) :
    doubleAt (bytesOf xs ++ tail) k = x % 2 ^ 64 := by
  have hkl : k < xs.length := by
    rcases Nat.lt_or_ge k xs.length with h | h
    · exact h
    · rw [List.getElem?_eq_none h] at hk
      exact absurd hk (by simp)
  have hx : xs[k] = x := by
    rw [List.getElem?_eq_getElem hkl] at hk
    simpa using hk
  have hsplit : xs = xs.take k ++ (x :: xs.drop (k + 1)) := by
    rw [← hx, ← List.drop_eq_getElem_cons hkl, List.take_append_drop]
  have hlen : (bytesOf (xs.take k)).length = sizeofDouble * k := by
    rw [length_bytesOf, List.length_take, Nat.min_eq_left (Nat.le_of_lt hkl), Nat.mul_comm]
  have hmem : bytesOf xs ++ tail =
      bytesOf (xs.take k) ++ (encode64 x ++ (bytesOf (xs.drop (k + 1)) ++ tail)) := by
    conv_lhs => rw [hsplit]
    rw [bytesOf_append, bytesOf_cons]
    simp [List.append_assoc]
  unfold doubleAt
  rw [hmem, ← hlen, List.drop_left, ← length_encode64 x, List.take_left, decode64_encode64]

/-- Laying an array over the bytes of `xs` gives `xs` back. -/
theorem doublesOf_bytesOf (xs tail : List Nat) (hx : ∀ x ∈ xs, x < 2 ^ 64) :
    doublesOf xs.length (bytesOf xs ++ tail) = xs := by
  apply List.ext_getElem?
  intro k
  unfold doublesOf
  by_cases hk : k < xs.length
  · rw [List.getElem?_map, List.getElem?_range hk, List.getElem?_eq_getElem hk]
    simp only [Option.map_some']
    rw [doubleAt_bytesOf xs tail k xs[k] (List.getElem?_eq_getElem hk)]
    rw [Nat.mod_eq_of_lt (hx _ (List.getElem_mem hk))]
  · rw [List.getElem?_eq_none (by simpa using hk), List.getElem?_eq_none (by simpa using hk)]

/-! ## The buffered writers -/

theorem foldl_pushRecord3 (MBUFFER : Nat) (xs : List Nat) : ∀ s : BufWriter,
    (xs.foldl (pushRecord3 MBUFFER) s).file ++ bytesOf (xs.foldl (pushRecord3 MBUFFER) s).buffer =
      s.file ++ bytesOf s.buffer ++ bytesOf xs := by
  induction xs with
  | nil => intro s; simp [bytesOf_nil]
  | cons x xs ih =>
    intro s
    rw [List.foldl_cons, ih]
    unfold pushRecord3
    simp only
    split
    · rw [take_bytesOf]
      simp [bytesOf_append, bytesOf_cons, bytesOf_nil, List.append_assoc]
    · simp [bytesOf_append, bytesOf_cons, bytesOf_nil, List.append_assoc]

theorem finalFlush3_spec (s : BufWriter) :
    finalFlush3 s = ⟨[], s.file ++ bytesOf s.buffer⟩ := by
  cases s with
  | mk buffer file =>
    cases buffer with
    | nil => simp [finalFlush3, bytesOf_nil]
    | cons x xs =>
      have := take_bytesOf (x :: xs)
      simp only [finalFlush3, List.isEmpty_cons, Bool.not_false, if_true, this]

theorem bufferedWrite3_spec (MBUFFER : Nat) (xs : List Nat) :
    bufferedWrite3 MBUFFER xs = ⟨[], directWrite xs⟩ := by
  have h := foldl_pushRecord3 MBUFFER xs ⟨[], []⟩
  rw [bufferedWrite3, finalFlush3_spec, h]
  simp [bytesOf_nil, directWrite, bytesOf]

theorem foldl_pushRecord2 (MBUFFER : Nat) (xs : List Nat) : ∀ s : BufWriter,
    (xs.foldl (pushRecord2 MBUFFER) s).file ++ (xs.foldl (pushRecord2 MBUFFER) s).buffer =
      s.file ++ s.buffer ++ bytesOf xs := by
  induction xs with
  | nil => intro s; simp [bytesOf_nil]
  | cons x xs ih =>
    intro s
    rw [List.foldl_cons, ih]
    unfold pushRecord2
    simp only
    split
    · rw [List.take_length]
      simp [bytesOf_cons, List.append_assoc]
    · simp [bytesOf_cons, List.append_assoc]

theorem finalFlush2_spec (s : BufWriter) : finalFlush2 s = ⟨[], s.file ++ s.buffer⟩ := by
  cases s with
  | mk buffer file =>
    cases buffer with
    | nil => simp [finalFlush2]
    | cons x xs =>
      simp only [finalFlush2, List.isEmpty_cons, Bool.not_false, if_true, List.take_length]

theorem bufferedWrite2_spec (MBUFFER : Nat) (xs : List Nat) :
    bufferedWrite2 MBUFFER xs = ⟨[], directWrite xs⟩ := by
  have h := foldl_pushRecord2 MBUFFER xs ⟨[], []⟩
  rw [bufferedWrite2, finalFlush2_spec, h]
  simp [directWrite, bytesOf]

/-! ## The read-back loop -/

theorem doubleAt_succ (mem : List Nat) (k : Nat) :
    doubleAt mem (k + 1) = doubleAt (mem.drop sizeofDouble) k := by
  unfold doubleAt
  rw [List.drop_drop]
  congr 3
  ring

theorem doublesOf_succ (mem : List Nat) (m : Nat) :
    doublesOf (m + 1) mem =
      decode64 (mem.take sizeofDouble) :: doublesOf m (mem.drop sizeofDouble) := by
  unfold doublesOf
  rw [List.range_succ_eq_map, List.map_cons, List.map_map]
  have h0 : doubleAt mem 0 = decode64 (mem.take sizeofDouble) := by simp [doubleAt]
  have h1 : (doubleAt mem ∘ Nat.succ) = doubleAt (mem.drop sizeofDouble) :=
    funext (doubleAt_succ mem)
  rw [h0, h1]

/-- The loop collects one value for every whole record in front of the get
position, in file order. -/
theorem readBackLoop_spec (n : Nat) : ∀ (bs x data : List Nat), bs.length = n →
    readBackLoop ⟨bs, false, false⟩ x data =
      data ++ doublesOf (bs.length / sizeofDouble) bs := by
  induction n using Nat.strong_induction_on with
  | _ n ih =>
    intro bs x data hn
    rw [readBackLoop]
    by_cases h : sizeofDouble ≤ bs.length
    · have hread : BStream.read ⟨bs, false, false⟩ sizeofDouble x =
          (⟨bs.drop sizeofDouble, false, false⟩, bs.take sizeofDouble) := by
        simp [BStream.read, h]
      have hlen : (bs.drop sizeofDouble).length < n := by
        rw [List.length_drop]
        simp only [sizeofDouble] at h ⊢
        omega
      have hdiv : bs.length / sizeofDouble =
          (bs.drop sizeofDouble).length / sizeofDouble + 1 := by
        rw [List.length_drop]
        simp only [sizeofDouble] at h ⊢
        omega
      simp only [hread, BStream.ok, Bool.not_false, Bool.and_self, if_true, dite_true]
      rw [ih _ hlen _ _ _ rfl, hdiv, doublesOf_succ]
      simp
    · have hread : BStream.read ⟨bs, false, false⟩ sizeofDouble x =
          (⟨[], true, true⟩, bs ++ x.drop bs.length) := by
        simp [BStream.read, h]
      have hdiv : bs.length / sizeofDouble = 0 := by
        simp only [sizeofDouble] at h ⊢
        omega
      simp [hread, BStream.ok, hdiv, doublesOf]

theorem readBack_spec (content x0 : List Nat) :
    readBack content x0 = doublesOf (content.length / sizeofDouble) content := by
  rw [readBack, BStream.open, readBackLoop_spec content.length content x0 [] rfl]
  simp

theorem length_doublesOf (n : Nat) (mem : List Nat) : (doublesOf n mem).length = n := by
  simp [doublesOf]

theorem length_records (val : Nat → Nat) (n : Nat) : (records val n).length = n := by
  simp [records]

theorem readBack_directWrite (xs x0 : List Nat) (hx : ∀ x ∈ xs, x < 2 ^ 64) :
    readBack (directWrite xs) x0 = xs := by
  have hb : directWrite xs = bytesOf xs := rfl
  rw [readBack_spec, hb, length_bytesOf]
  have hd : xs.length * sizeofDouble / sizeofDouble = xs.length :=
    Nat.mul_div_cancel _ (by decide)
  rw [hd]
  have := doublesOf_bytesOf xs [] hx
  simpa using this

/-! ## intSizes: the fill loops -/

theorem foldl_push_eq_map {α β : Type} (f : α → β) (l : List α) : ∀ acc : List β,
    l.foldl (fun v i => v ++ [f i]) acc = acc ++ l.map f := by
  induction l with
  | nil => intro acc; simp
  | cons a l ih => intro acc; simp [ih]

theorem fillInt_eq (bound : Nat) : fillInt bound = (List.range bound).map (fun (i : Nat) => (i : Int)) := by
  simp [fillInt, foldl_push_eq_map]

theorem fillInt8_eq (bound : Nat) :
    fillInt8 bound = (List.range bound).map (fun (i : Nat) => toInt8 (i : Int)) := by
  simp [fillInt8, foldl_push_eq_map]

theorem length_flatMap_encodeInt (size : Nat) (l : List Int) :
    (l.flatMap (encodeInt size)).length = l.length * size := by
  induction l with
  | nil => simp
  | cons a l ih =>
    rw [List.flatMap_cons, List.length_append, ih]
    simp [encodeInt]
    ring

theorem toInt8_small (i : Nat) (h : i < 128) : toInt8 (i : Int) = (i : Int) := by
  unfold toInt8
  omega

/-! ## The claims -/

/-- C1: for every sequence of 32-bit unsigned values written by the loop of
`make_index` into a data file of fewer than `2 ^ 64` bytes, and every zero-based
record number `i` below the number of values, the lookup of `read_indexed_data`
that consumes the index entries up to that of record `i` (`i + 1` extractions,
the last one read being the offset of record `i`), seeks the data to that
offset and parses one decimal value returns `values[i]`. -/
theorem lookup_roundtrip (values : List Nat) (offset0 x0 i : Nat)
    (hv : ∀ v ∈ values, v < 2 ^ 32)
    (hlen : (writerLoop values).output.length < 2 ^ 64)
    (hi : i < values.length) :
    lookup (i + 1) offset0 x0 (writerLoop values).outindex (writerLoop values).output =
      Except.ok values[i] := by
  have hlen2 : (lines values).length < 2 ^ 64 := by
    rw [writerLoop_eq] at hlen
    exact hlen
  unfold lookup
  rw [readRun_record values offset0 x0 i values[i] hv hlen2 (List.getElem?_eq_getElem hi)]

/-- C1 at the values 7, 8, 9 and record 1: two extractions, then the lookup returns 8. -/
theorem lookup_roundtrip_witness :
    lookup (1 + 1) 0 0 (writerLoop [7, 8, 9]).outindex (writerLoop [7, 8, 9]).output =
      Except.ok 8 :=
  lookup_roundtrip [7, 8, 9] 0 0 1 (by decide) (by decide) (by decide)

/-- C2: the index file written by the loop of `make_index` is the list of
offsets, one decimal line each, in the order of the values, and the `i`-th
offset is the sum of the serialized byte lengths (digits and the newline) of the
records `0, ..., i - 1`; offset 0 is 0.  The data file is the list of values,
one decimal line each. -/
theorem offset_correctness (values : List Nat) :
    (writerLoop values).outindex =
      lines ((List.range values.length).map
        (fun i => ((values.take i).map (fun v => (decimal v).length + 1)).sum)) ∧
    ((values.take 0).map (fun v => (decimal v).length + 1)).sum = 0 ∧
    (writerLoop values).output = lines values := by
  refine ⟨?_, by simp, ?_⟩
  · rw [writerLoop_eq]
    simp only
    rw [offsetsFrom_eq_map]
    congr 1
    apply List.map_congr_left
    intro i _
    show 0 + cumulativeWidth values i = _
    rw [Nat.zero_add]
    rfl
  · rw [writerLoop_eq]

/-- C3, as stated, fails: on the files `make_index` writes for the values
`0, ..., 9`, the value `x` decoded by `read_indexed_data` as written is not 5. -/
theorem scenarioA_counterexample :
    ¬ ((read_indexed_data 0 0 make_index.outindex make_index.output).x = 5) := by
  decide

/-- C3, amended: on the files `make_index` writes for the values `0, ..., 9`,
`read_indexed_data` as written reads five index entries, the last being the
offset 8 of the fifth record (record index 4), and the value `x` it decodes
is 4, whatever the uninitialised locals held. -/
theorem scenarioA_fifth_record (offset0 x0 : Nat) :
    (readOffsets 5 (IStream.open make_index.outindex) offset0).2 = 8 ∧
    (List.range 10)[4]? = some 4 ∧
    (read_indexed_data offset0 x0 make_index.outindex make_index.output).x = 4 := by
  have hv : ∀ a ∈ List.range 10, a < 2 ^ 32 := by decide
  have hlen : (lines (List.range 10)).length < 2 ^ 64 := by decide
  refine ⟨?_, by decide, ?_⟩
  · have h := scan_offset (List.range 10) offset0 4 hlen (by decide)
    have h8 : cumulativeWidth (List.range 10) 4 = 8 := by decide
    rw [h8] at h
    unfold make_index
    rw [writerLoop_eq]
    exact h
  · unfold read_indexed_data make_index
    rw [readRun_record (List.range 10) offset0 x0 4 4 hv hlen (by decide)]

/-- C5, as stated, fails: the index written for the three values 7, 8, 9 holds
three entries, fewer than the five the reader as written consumes, and the
lookup does not fail with `IndexOutOfRange`; it returns the value 9. -/
theorem out_of_range_counterexample :
    (offsetsFrom 0 [7, 8, 9]).length < 4 + 1 ∧
    lookup 5 0 0 (writerLoop [7, 8, 9]).outindex (writerLoop [7, 8, 9]).output ≠
      Except.error ReadError.IndexOutOfRange ∧
    lookup 5 0 0 (writerLoop [7, 8, 9]).outindex (writerLoop [7, 8, 9]).output =
      Except.ok 9 := by
  decide

/-- C5, amended: when the index written by the loop of `make_index` for a
non-empty sequence of 32-bit values holds fewer entries than the loop of
`read_indexed_data` reads, the lookup reports no `IndexOutOfRange`: the index
stream ends up failed, `offset` keeps the last entry read, and the lookup
returns the value of the last record. -/
theorem lookup_past_end (values : List Nat) (offset0 x0 n v : Nat)
    (hv : ∀ a ∈ values, a < 2 ^ 32)
    (hlen : (writerLoop values).output.length < 2 ^ 64)
    (hlast : values.getLast? = some v) (hn : values.length < n) :
    (readOffsets n (IStream.open (writerLoop values).outindex) offset0).1.failbit = true ∧
    (readOffsets n (IStream.open (writerLoop values).outindex) offset0).2 =
      ((values.take (values.length - 1)).map (fun a => (decimal a).length + 1)).sum ∧
    lookup n offset0 x0 (writerLoop values).outindex (writerLoop values).output =
      Except.ok v := by
  have hlen2 : (lines values).length < 2 ^ 64 := by
    rw [writerLoop_eq] at hlen
    exact hlen
  obtain ⟨h1, h2⟩ := readRun_exhausted values offset0 x0 n v hv hlen2 hlast hn
  refine ⟨?_, ?_, ?_⟩
  · rw [h1]
  · rw [h1]
    rfl
  · unfold lookup
    rw [h2]

/-- C5, amended, at the values 7, 8, 9 and the loop bound 5 of the source. -/
theorem lookup_past_end_witness :
    (readOffsets 5 (IStream.open (writerLoop [7, 8, 9]).outindex) 0).1.failbit = true ∧
    (readOffsets 5 (IStream.open (writerLoop [7, 8, 9]).outindex) 0).2 =
      (([7, 8, 9].take ([7, 8, 9].length - 1)).map (fun a => (decimal a).length + 1)).sum ∧
    lookup 5 0 0 (writerLoop [7, 8, 9]).outindex (writerLoop [7, 8, 9]).output =
      Except.ok 9 :=
  lookup_past_end [7, 8, 9] 0 0 5 9 (by decide) (by decide) (by decide) (by decide)

/-- C6, as stated, fails: the data file written for 10, 11, 12 has nine bytes;
cut to its first four, it ends inside record 1 (offset 3, width 3), and the
lookup of that record fails with neither `SeekError` nor `DecodeError`: it
returns the value 1. -/
theorem truncation_counterexample :
    (writerLoop [10, 11, 12]).output.length / 2 = 4 ∧
    4 < cumulativeWidth [10, 11, 12] 1 + recordWidth 11 ∧
    lookup 2 0 0 (writerLoop [10, 11, 12]).outindex
        ((writerLoop [10, 11, 12]).output.take 4) ≠ Except.error ReadError.SeekError ∧
    lookup 2 0 0 (writerLoop [10, 11, 12]).outindex
        ((writerLoop [10, 11, 12]).output.take 4) ≠ Except.error ReadError.DecodeError ∧
    lookup 2 0 0 (writerLoop [10, 11, 12]).outindex
        ((writerLoop [10, 11, 12]).output.take 4) = Except.ok 1 := by
  decide

/-- C6, amended: for a data file written by the loop of `make_index` (32-bit
values, fewer than `2 ^ 64` bytes) and cut to the first half of its bytes, the
lookup of a record `i` whose offset plus serialized width exceeds the kept
length reports neither `SeekError` nor `DecodeError`.  When the offset of the
record is at or past the cut, nothing is decoded and the lookup returns what the
uninitialised `x` held; when the record starts before the cut, the lookup
returns the number formed by the digits of the record that are left. -/
theorem lookup_truncated (values : List Nat) (offset0 x0 i v : Nat)
    (hv : ∀ a ∈ values, a < 2 ^ 32)
    (hlen : (writerLoop values).output.length < 2 ^ 64)
    (hi : values[i]? = some v)
    (hex : (writerLoop values).output.length / 2 <
      cumulativeWidth values i + recordWidth v) :
    lookup (i + 1) offset0 x0 (writerLoop values).outindex
        ((writerLoop values).output.take ((writerLoop values).output.length / 2)) =
      Except.ok
        (if (writerLoop values).output.length / 2 ≤ cumulativeWidth values i then x0
          else digitsValue ((decimal v).take
            ((writerLoop values).output.length / 2 - cumulativeWidth values i))) := by
  have hout : (writerLoop values).output = lines values := by rw [writerLoop_eq]
  rw [hout] at hlen hex ⊢
  have h := (readRun_truncated values offset0 x0 i v hv hlen hi hex).1
  rw [hout] at h
  unfold lookup
  rw [h]

/-- C6, amended, at the values 10, 11, 12 and record 1, cut inside its digits. -/
theorem lookup_truncated_witness :
    lookup (1 + 1) 5 6 (writerLoop [10, 11, 12]).outindex
        ((writerLoop [10, 11, 12]).output.take ((writerLoop [10, 11, 12]).output.length / 2)) =
      Except.ok
        (if (writerLoop [10, 11, 12]).output.length / 2 ≤ cumulativeWidth [10, 11, 12] 1 then 6
          else digitsValue ((decimal 11).take
            ((writerLoop [10, 11, 12]).output.length / 2 - cumulativeWidth [10, 11, 12] 1))) :=
  lookup_truncated [10, 11, 12] 5 6 1 11 (by decide) (by decide) (by decide) (by decide)

/-- C4: for every list of records and every buffer capacity, the bytes the
buffered write loop and its final conditional flush hand to the file are the
8-byte encodings of all records in order, the bytes of a write without a buffer;
this holds for `binaryCpp3` (1,000,000 records, 1024 doubles, 576 records left
for the final flush) and `binaryCpp2` (10,000 records, 1024 bytes, 128 bytes
left for the final flush). -/
theorem flush_on_completion (MBUFFER : Nat) (xs : List Nat) (val : Nat → Nat) :
    (bufferedWrite3 MBUFFER xs).file = directWrite xs ∧
    (bufferedWrite2 MBUFFER xs).file = directWrite xs ∧
    (directWrite xs).length = xs.length * 8 ∧
    (binaryCpp3_write val).file = directWrite (records val 1000000) ∧
    (binaryCpp2_write val).file = directWrite (records val 10000) ∧
    1000000 % 1024 = 576 ∧ 10000 * 8 % 1024 = 128 := by
  refine ⟨?_, ?_, ?_, ?_, ?_, by decide, by decide⟩
  · rw [bufferedWrite3_spec]
  · rw [bufferedWrite2_spec]
  · exact length_bytesOf xs
  · rw [binaryCpp3_write, bufferedWrite3_spec]
  · rw [binaryCpp2_write, bufferedWrite2_spec]

/-- C7: `intSizes` fills both vectors with `0, ..., 126` (127 elements, each
unchanged by the conversion to `int8_t`); the byte count of the 32-bit file is
508, that of the 8-bit file is 127, four times less, and the files have these
lengths; the ratio is 4 for every common loop bound `n`. -/
theorem intSizes_ratio (n : Nat) :
    intSizes.vi = (List.range 127).map (fun (i : Nat) => (i : Int)) ∧
    intSizes.vi8 = intSizes.vi ∧
    intSizes.count1 = 508 ∧ intSizes.count2 = 127 ∧
    intSizes.count1 = 4 * intSizes.count2 ∧
    intSizes.intout.length = 508 ∧ intSizes.int8out.length = 127 ∧
    (intSizesRun n).count1 = 4 * (intSizesRun n).count2 ∧
    (intSizesRun n).intout.length = 4 * (intSizesRun n).int8out.length := by
  have hl : ∀ m, (fillInt m).length = m := by
    intro m
    rw [fillInt_eq, List.length_map, List.length_range]
  have hl8 : ∀ m, (fillInt8 m).length = m := by
    intro m
    rw [fillInt8_eq, List.length_map, List.length_range]
  have hcount : ∀ m, (intSizesRun m).count1 = 4 * m ∧ (intSizesRun m).count2 = m := by
    intro m
    simp only [intSizesRun, hl, hl8, sizeofInt, sizeofSmallerInt]
    omega
  have hfile : ∀ m, (intSizesRun m).intout.length = 4 * m ∧
      (intSizesRun m).int8out.length = m := by
    intro m
    simp only [intSizesRun, List.length_take, length_flatMap_encodeInt, hl, hl8,
      sizeofInt, sizeofSmallerInt]
    omega
  have h8 : fillInt8 127 = fillInt 127 := by
    rw [fillInt_eq, fillInt8_eq]
    exact List.map_congr_left (fun i hi => toInt8_small i (by have := List.mem_range.1 hi; omega))
  refine ⟨fillInt_eq 127, h8, ?_, ?_, ?_, ?_, ?_, ?_, ?_⟩
  · exact (hcount 127).1
  · exact (hcount 127).2
  · rw [show intSizes = intSizesRun 127 from rfl, (hcount 127).1, (hcount 127).2]
  · exact (hfile 127).1
  · exact (hfile 127).2
  · rw [(hcount n).1, (hcount n).2]
  · rw [(hfile n).1, (hfile n).2]

/-- C8: for every buffer of 64-bit patterns, the file written by one `write` of
`n * 8` bytes holds the `n` records back to back, and one `read` of `n * 8`
bytes gives a second buffer equal to the first at every index; in `binaryCpp`
and `binaryC` (`n = 1000000`) element 10 and the non-finite element 0 come back
with their bit patterns, and the byte count written, 8,000,000, is the byte
count read and is the value of the `int` it is stored in. -/
theorem binary_roundtrip (dbuffer mem2 : List Nat) (val : Nat → Nat)
    (hx : ∀ x ∈ dbuffer, x < 2 ^ 64) (hval : ∀ i, val i < 2 ^ 64) :
    (binaryRoundTrip dbuffer mem2).file = dbuffer.flatMap encode64 ∧
    (binaryRoundTrip dbuffer mem2).file.length = dbuffer.length * 8 ∧
    (binaryRoundTrip dbuffer mem2).dbuffer2 = (binaryRoundTrip dbuffer mem2).dbuffer ∧
    (binaryCpp val mem2).dbuffer2 = (binaryCpp val mem2).dbuffer ∧
    (binaryCpp val mem2).dbuffer2[10]? = some (val 10) ∧
    (binaryCpp val mem2).dbuffer2[0]? = some (val 0) ∧
    (binaryCpp val mem2).rvWrite = 8000000 ∧
    (binaryCpp val mem2).rvRead = 8000000 := by
  have hfile : ∀ xs : List Nat, (binaryRoundTrip xs mem2).file = bytesOf xs := by
    intro xs
    simp only [binaryRoundTrip, posixWrite]
    exact take_bytesOf xs
  have hrt : ∀ xs : List Nat, (∀ x ∈ xs, x < 2 ^ 64) →
      (binaryRoundTrip xs mem2).dbuffer2 = xs := by
    intro xs hxs
    simp only [binaryRoundTrip, posixWrite, posixRead]
    rw [take_bytesOf, take_bytesOf]
    exact doublesOf_bytesOf xs _ hxs
  have hrv : ∀ xs : List Nat, (binaryRoundTrip xs mem2).rvWrite = toInt32 (xs.length * 8) ∧
      (binaryRoundTrip xs mem2).rvRead = toInt32 (xs.length * 8) := by
    intro xs
    simp only [binaryRoundTrip, posixWrite, posixRead]
    rw [take_bytesOf, take_bytesOf, length_bytesOf]
    exact ⟨rfl, rfl⟩
  have hbuf : ∀ xs : List Nat, (binaryRoundTrip xs mem2).dbuffer = xs := fun _ => rfl
  have hrec : ∀ x ∈ records val 1000000, x < 2 ^ 64 := by
    intro x hx2
    simp only [records, List.mem_map] at hx2
    obtain ⟨i, _, rfl⟩ := hx2
    exact hval i
  have hget : ∀ k, k < 1000000 → (records val 1000000)[k]? = some (val k) := by
    intro k hk
    simp [records, List.getElem?_map, List.getElem?_range hk]
  have h32 : toInt32 (1000000 * 8) = 8000000 := by decide
  refine ⟨hfile dbuffer, ?_, ?_, ?_, ?_, ?_, ?_, ?_⟩
  · rw [hfile, length_bytesOf]
    rfl
  · rw [hrt dbuffer hx, hbuf]
  · rw [binaryCpp, hrt _ hrec, hbuf]
  · rw [binaryCpp, hrt _ hrec]
    exact hget 10 (by decide)
  · rw [binaryCpp, hrt _ hrec]
    exact hget 0 (by decide)
  · rw [binaryCpp, (hrv _).1, length_records]
    exact h32
  · rw [binaryCpp, (hrv _).2, length_records]
    exact h32

/-- C8 at a buffer of three patterns, the all-ones pattern among them. -/
theorem binary_roundtrip_witness :
    (binaryRoundTrip [1, 2 ^ 64 - 1, 3] [0, 0]).file = [1, 2 ^ 64 - 1, 3].flatMap encode64 ∧
    (binaryRoundTrip [1, 2 ^ 64 - 1, 3] [0, 0]).file.length = [1, 2 ^ 64 - 1, 3].length * 8 ∧
    (binaryRoundTrip [1, 2 ^ 64 - 1, 3] [0, 0]).dbuffer2 =
      (binaryRoundTrip [1, 2 ^ 64 - 1, 3] [0, 0]).dbuffer ∧
    (binaryCpp (fun i => i % 2 ^ 64) [0, 0]).dbuffer2 =
      (binaryCpp (fun i => i % 2 ^ 64) [0, 0]).dbuffer ∧
    (binaryCpp (fun i => i % 2 ^ 64) [0, 0]).dbuffer2[10]? = some (10 % 2 ^ 64) ∧
    (binaryCpp (fun i => i % 2 ^ 64) [0, 0]).dbuffer2[0]? = some (0 % 2 ^ 64) ∧
    (binaryCpp (fun i => i % 2 ^ 64) [0, 0]).rvWrite = 8000000 ∧
    (binaryCpp (fun i => i % 2 ^ 64) [0, 0]).rvRead = 8000000 :=
  binary_roundtrip [1, 2 ^ 64 - 1, 3] [0, 0] (fun i => i % 2 ^ 64) (by decide)
    (fun i => Nat.mod_lt i (by decide))

/-- C9: the read-back loop is a total function of the file content; on a file of
`b` bytes it collects `b / 8` values (rounded down), the `k`-th being the
decoding of the bytes `8k, ..., 8k + 7`, so that the read that meets the end of
the file and a trailing chunk of fewer than 8 bytes add nothing.  After the
buffered writer of the same program the vector collected equals the records
written: 1,000,000 of them in `binaryCpp3`, 10,000 in `binaryCpp2`. -/
theorem readBack_collects (content x0 xs : List Nat) (MBUFFER : Nat) (val : Nat → Nat)
    (hx : ∀ x ∈ xs, x < 2 ^ 64) (hval : ∀ i, val i < 2 ^ 64) :
    readBack content x0 =
      (List.range (content.length / 8)).map
        (fun k => decode64 ((content.drop (8 * k)).take 8)) ∧
    (readBack content x0).length = content.length / 8 ∧
    readBack (bufferedWrite3 MBUFFER xs).file x0 = xs ∧
    readBack (bufferedWrite2 MBUFFER xs).file x0 = xs ∧
    readBack (binaryCpp3_write val).file x0 = records val 1000000 ∧
    (readBack (binaryCpp3_write val).file x0).length = 1000000 ∧
    readBack (binaryCpp2_write val).file x0 = records val 10000 ∧
    (readBack (binaryCpp2_write val).file x0).length = 10000 := by
  have hrec : ∀ n, ∀ x ∈ records val n, x < 2 ^ 64 := by
    intro n x hx2
    simp only [records, List.mem_map] at hx2
    obtain ⟨i, _, rfl⟩ := hx2
    exact hval i
  have hf3 : (binaryCpp3_write val).file = directWrite (records val 1000000) := by
    rw [binaryCpp3_write, bufferedWrite3_spec]
  have hf2 : (binaryCpp2_write val).file = directWrite (records val 10000) := by
    rw [binaryCpp2_write, bufferedWrite2_spec]
  have h3 : readBack (binaryCpp3_write val).file x0 = records val 1000000 :=
    hf3 ▸ readBack_directWrite _ x0 (hrec _)
  have h2 : readBack (binaryCpp2_write val).file x0 = records val 10000 :=
    hf2 ▸ readBack_directWrite _ x0 (hrec _)
  refine ⟨?_, ?_, ?_, ?_, h3, ?_, h2, ?_⟩
  · rw [readBack_spec]
    rfl
  · rw [readBack_spec, length_doublesOf]
    rfl
  · rw [bufferedWrite3_spec]
    exact readBack_directWrite xs x0 hx
  · rw [bufferedWrite2_spec]
    exact readBack_directWrite xs x0 hx
  · rw [h3, length_records]
  · rw [h2, length_records]

/-- C9 at a file of eleven bytes and at a buffer of capacity 2 for three records. -/
theorem readBack_collects_witness :
    readBack [1, 2, 3, 4, 5, 6, 7, 8, 9, 10, 11] [0] =
      (List.range ([1, 2, 3, 4, 5, 6, 7, 8, 9, 10, 11].length / 8)).map
        (fun k => decode64 (([1, 2, 3, 4, 5, 6, 7, 8, 9, 10, 11].drop (8 * k)).take 8)) ∧
    (readBack [1, 2, 3, 4, 5, 6, 7, 8, 9, 10, 11] [0]).length =
      [1, 2, 3, 4, 5, 6, 7, 8, 9, 10, 11].length / 8 ∧
    readBack (bufferedWrite3 2 [5, 2 ^ 64 - 1, 7]).file [0] = [5, 2 ^ 64 - 1, 7] ∧
    readBack (bufferedWrite2 2 [5, 2 ^ 64 - 1, 7]).file [0] = [5, 2 ^ 64 - 1, 7] ∧
    readBack (binaryCpp3_write (fun i => i % 2 ^ 64)).file [0] =
      records (fun i => i % 2 ^ 64) 1000000 ∧
    (readBack (binaryCpp3_write (fun i => i % 2 ^ 64)).file [0]).length = 1000000 ∧
    readBack (binaryCpp2_write (fun i => i % 2 ^ 64)).file [0] =
      records (fun i => i % 2 ^ 64) 10000 ∧
    (readBack (binaryCpp2_write (fun i => i % 2 ^ 64)).file [0]).length = 10000 :=
  readBack_collects [1, 2, 3, 4, 5, 6, 7, 8, 9, 10, 11] [0] [5, 2 ^ 64 - 1, 7] 2
    (fun i => i % 2 ^ 64) (by decide) (fun i => Nat.mod_lt i (by decide))

/-- C10, evaluated on the code: when `binaryCpp3` reaches its comparison loop
the vector `buffer` has size 0, because the final flush cleared it, so no index
`i` of the loop is below its size, while `data` has 1,000,000 elements and every
index `0, ..., 9` is below its size. -/
theorem binaryCpp3_buffer_cleared (val : Nat → Nat) (x0 : List Nat) :
    (binaryCpp3_write val).buffer.length = 0 ∧
    ¬ (0 < (binaryCpp3_write val).buffer.length) ∧
    (readBack (binaryCpp3_write val).file x0).length = 1000000 ∧
    9 < (readBack (binaryCpp3_write val).file x0).length := by
  have hb : (binaryCpp3_write val).buffer = [] := by
    rw [binaryCpp3_write, bufferedWrite3_spec]
  have hd : (readBack (binaryCpp3_write val).file x0).length = 1000000 := by
    rw [binaryCpp3_write, bufferedWrite3_spec, readBack_spec]
    simp only [length_doublesOf]
    have hl : (directWrite (records val 1000000)).length = 1000000 * sizeofDouble := by
      rw [show directWrite (records val 1000000) = bytesOf (records val 1000000) from rfl,
        length_bytesOf, length_records]
    rw [hl]
    exact Nat.mul_div_cancel _ (by decide)
  refine ⟨?_, ?_, hd, ?_⟩
  · rw [hb]
    rfl
  · rw [hb]
    decide
  · rw [hd]
    decide

end BigDataFormats
